import Mathlib

/-!
Verification development for the interactive timeline editing engine of the
`hackai` repository (frontend/src/app/create/page.tsx and
frontend/src/services/apiClient.ts).

Times are modelled as rationals (seconds).  Lists model JS arrays; `Option`
models optional / possibly-missing fields; `Except String` models a network
call that either returns a parsed response or throws.
-/

attribute [local semireducible] Rat.add Rat.mul Rat.sub Rat.inv Rat.ofScientific

set_option maxRecDepth 40000

/-- Caption position enum from `CaptionStyle.position` ('top' | 'center' | 'bottom'). -/
inductive CaptionPosition where
  | top
  | center
  | bottom
deriving DecidableEq, Inhabited

/-- Caption animation enum from `CaptionStyle.animation` ('none' | 'pop' | 'slide' | 'typewriter'). -/
inductive CaptionAnimation where
  | nothing
  | pop
  | slide
  | typewriter
deriving DecidableEq, Inhabited

/-- `CaptionStyle` record from apiClient.ts. -/
structure CaptionStyle where
  fontSize : ℚ
  fontColor : String
  backgroundColor : String
  backgroundOpacity : ℚ
  outlineColor : String
  outlineWidth : ℚ
  position : CaptionPosition
  animation : CaptionAnimation
deriving DecidableEq, Inhabited

/-- `CaptionSegment` record from apiClient.ts; the field `stop` models the
source field `end` (a reserved word in Lean). -/
structure CaptionSegment where
  start : ℚ
  stop : ℚ
  text : String
deriving DecidableEq, Inhabited

/-- `defaultCaptionStyle` constant from page.tsx. -/
def defaultCaptionStyle : CaptionStyle :=
  { fontSize := 24
    fontColor := "#FFFFFF"
    backgroundColor := "#000000"
    backgroundOpacity := 8/10
    outlineColor := "#000000"
    outlineWidth := 2
    position := .bottom
    animation := .typewriter }

/-- The `Clip` interface of page.tsx (the normalized output of `processClips`). -/
structure Clip where
  id : String
  title : String
  startTime : String
  endTime : String
  duration : String
  thumbnail : Option String
  path : String
  start_time : ℚ
  end_time : ℚ
  text : String
  caption : String
  hashtags : List String
  captions : List CaptionSegment
  captionStyle : CaptionStyle
deriving DecidableEq, Inhabited

/-- The `EditingClip` interface of page.tsx (`extends Clip`). -/
structure EditingClip extends Clip where
  originalStart : ℚ
  originalEnd : ℚ
  editedStart : ℚ
  editedEnd : ℚ
  originalPath : Option String
deriving DecidableEq, Inhabited

/-- JS array indexing `l[i]` (total, with the `Inhabited` default out of range;
all uses are guarded by an index-in-range check exactly as the source guards
with `if (!clip) return`). -/
def clipAt (l : List EditingClip) (i : ℕ) : EditingClip :=
  l.getD i default

/-- The three drag gesture kinds of `handleTimelineMouseDown`
('start' | 'end' | 'move'). -/
inductive DragType where
  | trimStart
  | trimEnd
  | move
deriving DecidableEq, Inhabited

/-- `minBound` computed in `handleMouseMove`:
`Math.max(0, ...otherClips.map(c => c.editedEnd).filter(end => end <= clip.editedStart))`
where `otherClips = editingClips.filter((_, i) => i !== clipIndex)`. -/
def minBoundOf (l : List EditingClip) (k : ℕ) : ℚ :=
  (((l.eraseIdx k).map (fun c => c.editedEnd)).filter
    (fun e => e ≤ (clipAt l k).editedStart)).foldl max 0

/-- `maxBound` computed in `handleMouseMove`:
`Math.min(videoDuration, ...otherClips.map(c => c.editedStart).filter(start => start >= clip.editedEnd))`. -/
def maxBoundOf (l : List EditingClip) (k : ℕ) (videoDuration : ℚ) : ℚ :=
  (((l.eraseIdx k).map (fun c => c.editedStart)).filter
    (fun s => (clipAt l k).editedEnd ≤ s)).foldl min videoDuration

/-- The body of the `handleMouseMove` listener installed by
`handleTimelineMouseDown`: computes `deltaTime` from the pixel delta, derives
`minBound`/`maxBound` from the other clips and writes the clamped boundary of
the dragged clip back into the collection.  `dragStartValue`, `dragStartX`,
the clip list and `videoDuration` are the values the listener closes over. -/
def handleMouseMove (l : List EditingClip) (k : ℕ) (ty : DragType)
    (dragStartValue dragStartX clientX timelineWidth videoDuration : ℚ) :
    List EditingClip :=
  let deltaX := clientX - dragStartX
  let deltaTime := deltaX / timelineWidth * videoDuration
  if k < l.length then
    let clip := clipAt l k
    let minBound := minBoundOf l k
    let maxBound := maxBoundOf l k videoDuration
    match ty with
    | .trimStart =>
      let newStart := max minBound (min (clip.editedEnd - 1) (dragStartValue + deltaTime))
      l.set k { clip with editedStart := newStart }
    | .trimEnd =>
      let newEnd := min maxBound (max (clip.editedStart + 1) (dragStartValue + deltaTime))
      l.set k { clip with editedEnd := newEnd }
    | .move =>
      let clipDuration := clip.editedEnd - clip.editedStart
      let newStart := max minBound (min (maxBound - clipDuration) (dragStartValue + deltaTime))
      l.set k { clip with editedStart := newStart, editedEnd := newStart + clipDuration }
  else l

/-- One drag-move event with all the quantities the listener reads. -/
structure DragEvent where
  clipIndex : ℕ
  ty : DragType
  dragStartValue : ℚ
  dragStartX : ℚ
  clientX : ℚ
  timelineWidth : ℚ
  videoDuration : ℚ
deriving DecidableEq, Inhabited

/-- Apply one drag-move event. -/
def dragStep (l : List EditingClip) (ev : DragEvent) : List EditingClip :=
  handleMouseMove l ev.clipIndex ev.ty ev.dragStartValue ev.dragStartX
    ev.clientX ev.timelineWidth ev.videoDuration

/-- Apply a sequence of drag-move events in order. -/
def applyDrags (l : List EditingClip) (evs : List DragEvent) : List EditingClip :=
  evs.foldl dragStep l

/-- The ClipCollection no-overlap invariant: the edited intervals of any two
distinct clips do not overlap. -/
def NoOverlap (l : List EditingClip) : Prop :=
  ∀ i, i < l.length → ∀ j, j < l.length → i ≠ j →
    (clipAt l i).editedEnd ≤ (clipAt l j).editedStart ∨
    (clipAt l j).editedEnd ≤ (clipAt l i).editedStart

instance (l : List EditingClip) : Decidable (NoOverlap l) := by
  unfold NoOverlap
  infer_instance

/-- Every clip has edited duration at least the 1-second minimum. -/
def MinLen (l : List EditingClip) : Prop :=
  ∀ i, i < l.length → (clipAt l i).editedStart + 1 ≤ (clipAt l i).editedEnd

instance (l : List EditingClip) : Decidable (MinLen l) := by
  unfold MinLen
  infer_instance

/-- Every clip's edited start is non-negative. -/
def NonNegStarts (l : List EditingClip) : Prop :=
  ∀ i, i < l.length → 0 ≤ (clipAt l i).editedStart

instance (l : List EditingClip) : Decidable (NonNegStarts l) := by
  unfold NonNegStarts
  infer_instance

/-- Bounds containment: `0 ≤ editedStart < editedEnd ≤ D` for every clip. -/
def BoundsContained (l : List EditingClip) (D : ℚ) : Prop :=
  ∀ i, i < l.length →
    0 ≤ (clipAt l i).editedStart ∧
    (clipAt l i).editedStart < (clipAt l i).editedEnd ∧
    (clipAt l i).editedEnd ≤ D

instance (l : List EditingClip) (D : ℚ) : Decidable (BoundsContained l D) := by
  unfold BoundsContained
  infer_instance

/-- A bare clip with the given edited interval, used for concrete instances. -/
def testClip (s e : ℚ) : EditingClip :=
  { id := "", title := "", startTime := "", endTime := "", duration := "",
    thumbnail := none, path := "", start_time := s, end_time := e,
    text := "", caption := "", hashtags := [], captions := [],
    captionStyle := defaultCaptionStyle,
    originalStart := s, originalEnd := e, editedStart := s, editedEnd := e,
    originalPath := none }

section FoldBounds

variable {α : Type _} [LinearOrder α]

theorem le_foldl_max (a : α) (l : List α) : a ≤ l.foldl max a := by
  induction l generalizing a with
  | nil => exact le_refl a
  | cons x xs ih => exact le_trans (le_max_left a x) (ih (max a x))

theorem le_foldl_max_of_mem {x : α} {l : List α} (a : α) (h : x ∈ l) :
    x ≤ l.foldl max a := by
  induction l generalizing a with
  | nil => cases h
  | cons y ys ih =>
    rcases List.mem_cons.mp h with h' | h'
    · subst h'
      exact le_trans (le_max_right a x) (le_foldl_max (max a x) ys)
    · exact ih (max a y) h'

theorem foldl_max_le {a b : α} {l : List α} (h : a ≤ b) (h' : ∀ x ∈ l, x ≤ b) :
    l.foldl max a ≤ b := by
  induction l generalizing a with
  | nil => exact h
  | cons x xs ih =>
    exact ih (max_le h (h' x (List.mem_cons_self x xs)))
      (fun y hy => h' y (List.mem_cons_of_mem x hy))

theorem foldl_max_eq_or_mem (a : α) (l : List α) :
    l.foldl max a = a ∨ l.foldl max a ∈ l := by
  induction l generalizing a with
  | nil => exact Or.inl rfl
  | cons x xs ih =>
    rcases ih (max a x) with h | h
    · rcases max_choice a x with h' | h'
      · exact Or.inl (by rw [List.foldl_cons, h, h'])
      · refine Or.inr ?_
        rw [List.foldl_cons, h, h']
        exact List.mem_cons_self x xs
    · refine Or.inr (List.mem_cons_of_mem x ?_)
      rw [List.foldl_cons]
      exact h

theorem foldl_min_le (a : α) (l : List α) : l.foldl min a ≤ a := by
  induction l generalizing a with
  | nil => exact le_refl a
  | cons x xs ih => exact le_trans (ih (min a x)) (min_le_left a x)

theorem foldl_min_le_of_mem {x : α} {l : List α} (a : α) (h : x ∈ l) :
    l.foldl min a ≤ x := by
  induction l generalizing a with
  | nil => cases h
  | cons y ys ih =>
    rcases List.mem_cons.mp h with h' | h'
    · subst h'
      exact le_trans (foldl_min_le (min a x) ys) (min_le_right a x)
    · exact ih (min a y) h'

theorem le_foldl_min {a b : α} {l : List α} (h : b ≤ a) (h' : ∀ x ∈ l, b ≤ x) :
    b ≤ l.foldl min a := by
  induction l generalizing a with
  | nil => exact h
  | cons x xs ih =>
    exact ih (le_min h (h' x (List.mem_cons_self x xs)))
      (fun y hy => h' y (List.mem_cons_of_mem x hy))

theorem lt_foldl_min {a b : α} {l : List α} (h : b < a) (h' : ∀ x ∈ l, b < x) :
    b < l.foldl min a := by
  induction l generalizing a with
  | nil => exact h
  | cons x xs ih =>
    exact ih (lt_min h (h' x (List.mem_cons_self x xs)))
      (fun y hy => h' y (List.mem_cons_of_mem x hy))

theorem foldl_min_eq_or_mem (a : α) (l : List α) :
    l.foldl min a = a ∨ l.foldl min a ∈ l := by
  induction l generalizing a with
  | nil => exact Or.inl rfl
  | cons x xs ih =>
    rcases ih (min a x) with h | h
    · rcases min_choice a x with h' | h'
      · exact Or.inl (by rw [List.foldl_cons, h, h'])
      · refine Or.inr ?_
        rw [List.foldl_cons, h, h']
        exact List.mem_cons_self x xs
    · refine Or.inr (List.mem_cons_of_mem x ?_)
      rw [List.foldl_cons]
      exact h

end FoldBounds

section ListIndex

variable {α : Type _} [Inhabited α]

theorem getD_mem {l : List α} {i : ℕ} (h : i < l.length) :
    l.getD i default ∈ l := by
  induction l generalizing i with
  | nil => simp at h
  | cons x xs ih =>
    cases i with
    | zero => exact List.mem_cons_self x xs
    | succ n =>
      simp only [List.length_cons, Nat.succ_lt_succ_iff] at h
      exact List.mem_cons_of_mem x (ih h)

theorem getD_mem_eraseIdx {l : List α} {j k : ℕ} (hj : j < l.length)
    (hne : j ≠ k) : l.getD j default ∈ l.eraseIdx k := by
  induction l generalizing j k with
  | nil => simp at hj
  | cons x xs ih =>
    cases k with
    | zero =>
      cases j with
      | zero => exact absurd rfl hne
      | succ n =>
        simp only [List.length_cons, Nat.succ_lt_succ_iff] at hj
        show xs.getD n default ∈ xs
        exact getD_mem hj
    | succ m =>
      cases j with
      | zero =>
        show x ∈ x :: xs.eraseIdx m
        exact List.mem_cons_self x _
      | succ n =>
        simp only [List.length_cons, Nat.succ_lt_succ_iff] at hj
        have := ih hj (fun h => hne (congrArg Nat.succ h))
        show xs.getD n default ∈ x :: xs.eraseIdx m
        exact List.mem_cons_of_mem x this

theorem mem_eraseIdx_index {l : List α} {k : ℕ} {x : α}
    (h : x ∈ l.eraseIdx k) :
    ∃ j, j < l.length ∧ j ≠ k ∧ l.getD j default = x := by
  induction l generalizing k with
  | nil => simp [List.eraseIdx] at h
  | cons a t ih =>
    cases k with
    | zero =>
      replace h : x ∈ t := h
      rcases List.mem_iff_get.mp h with ⟨⟨i, hi⟩, hget⟩
      refine ⟨i + 1, by simp only [List.length_cons]; omega, by omega, ?_⟩
      show t.getD i default = x
      rw [List.getD_eq_getElem _ _ hi]
      simpa using hget
    | succ m =>
      replace h : x ∈ a :: t.eraseIdx m := h
      rcases List.mem_cons.mp h with h' | h'
      · exact ⟨0, by simp, by omega, h'.symm⟩
      · rcases ih h' with ⟨j, hj, hjm, hx⟩
        exact ⟨j + 1, by simp only [List.length_cons]; omega, by omega, hx⟩

theorem getD_set_self {l : List α} {k : ℕ} {c : α} (h : k < l.length) :
    (l.set k c).getD k default = c := by
  induction l generalizing k with
  | nil => simp at h
  | cons x xs ih =>
    cases k with
    | zero => rfl
    | succ n =>
      simp only [List.length_cons, Nat.succ_lt_succ_iff] at h
      simpa using ih h

theorem getD_set_ne {l : List α} {k j : ℕ} {c : α} (h : j ≠ k) :
    (l.set k c).getD j default = l.getD j default := by
  induction l generalizing k j with
  | nil => simp
  | cons x xs ih =>
    cases k with
    | zero =>
      cases j with
      | zero => exact absurd rfl h
      | succ n => rfl
    | succ m =>
      cases j with
      | zero => rfl
      | succ n =>
        simpa using ih (fun hc => h (congrArg Nat.succ hc))

end ListIndex

example : NoOverlap [testClip 0 10, testClip 10 20] := by decide
example : ¬ NoOverlap [testClip 0 10, testClip 5 20] := by decide
example : (clipAt (handleMouseMove [testClip 0 10, testClip 10 20] 0 .trimEnd
    10 0 50 1200 120) 0).editedEnd = 10 := by decide

section BoundLemmas

variable {l : List EditingClip} {k : ℕ} {D : ℚ}

theorem minBound_nonneg : 0 ≤ minBoundOf l k :=
  le_foldl_max 0 _

theorem minBound_le_start (h0 : 0 ≤ (clipAt l k).editedStart) :
    minBoundOf l k ≤ (clipAt l k).editedStart := by
  refine foldl_max_le h0 (fun x hx => ?_)
  rcases List.mem_filter.mp hx with ⟨_, hpred⟩
  exact of_decide_eq_true hpred

theorem le_minBound_of_before {j : ℕ} (hj : j < l.length) (hne : j ≠ k)
    (hbef : (clipAt l j).editedEnd ≤ (clipAt l k).editedStart) :
    (clipAt l j).editedEnd ≤ minBoundOf l k := by
  refine le_foldl_max_of_mem 0 ?_
  refine List.mem_filter.mpr ⟨?_, decide_eq_true hbef⟩
  exact List.mem_map_of_mem _ (getD_mem_eraseIdx hj hne)

theorem maxBound_le_D : maxBoundOf l k D ≤ D :=
  foldl_min_le D _

theorem maxBound_le_of_after {j : ℕ} (hj : j < l.length) (hne : j ≠ k)
    (haft : (clipAt l k).editedEnd ≤ (clipAt l j).editedStart) :
    maxBoundOf l k D ≤ (clipAt l j).editedStart := by
  refine foldl_min_le_of_mem D ?_
  refine List.mem_filter.mpr ⟨?_, decide_eq_true haft⟩
  exact List.mem_map_of_mem _ (getD_mem_eraseIdx hj hne)

theorem start_lt_maxBound (hs : (clipAt l k).editedStart < (clipAt l k).editedEnd)
    (hD : (clipAt l k).editedEnd ≤ D) :
    (clipAt l k).editedStart < maxBoundOf l k D := by
  refine lt_foldl_min (lt_of_lt_of_le hs hD) (fun x hx => ?_)
  rcases List.mem_filter.mp hx with ⟨_, hpred⟩
  exact lt_of_lt_of_le hs (of_decide_eq_true hpred)

theorem end_le_maxBound (hD : (clipAt l k).editedEnd ≤ D) :
    (clipAt l k).editedEnd ≤ maxBoundOf l k D := by
  refine le_foldl_min hD (fun x hx => ?_)
  rcases List.mem_filter.mp hx with ⟨_, hpred⟩
  exact of_decide_eq_true hpred

end BoundLemmas

section StepLemmas

variable {l : List EditingClip} {k : ℕ}
variable {v x cx w D : ℚ}

/-- The requested target value `dragStartValue + deltaTime` of a move event. -/
def reqOf (v x cx w D : ℚ) : ℚ := v + (cx - x) / w * D

theorem handleMouseMove_out (hk : ¬ k < l.length)
    (ty : DragType) : handleMouseMove l k ty v x cx w D = l := by
  simp [handleMouseMove, hk]

theorem handleMouseMove_trimStart (hk : k < l.length) :
    handleMouseMove l k .trimStart v x cx w D =
      l.set k { clipAt l k with editedStart := (max (minBoundOf l k)
        (min ((clipAt l k).editedEnd - 1) (reqOf v x cx w D))) } := by
  simp [handleMouseMove, hk, reqOf]

theorem handleMouseMove_trimEnd (hk : k < l.length) :
    handleMouseMove l k .trimEnd v x cx w D =
      l.set k { clipAt l k with editedEnd := (min (maxBoundOf l k D)
        (max ((clipAt l k).editedStart + 1) (reqOf v x cx w D))) } := by
  simp [handleMouseMove, hk, reqOf]

end StepLemmas

/-- The clamped new start position of a `move` drag with requested value `r`. -/
def moveTarget (l : List EditingClip) (k : ℕ) (D r : ℚ) : ℚ :=
  max (minBoundOf l k)
    (min (maxBoundOf l k D - ((clipAt l k).editedEnd - (clipAt l k).editedStart)) r)

/-- The clip written back by a `move` drag with requested value `r`. -/
def movedClip (l : List EditingClip) (k : ℕ) (D r : ℚ) : EditingClip :=
  { clipAt l k with
    editedStart := moveTarget l k D r
    editedEnd := moveTarget l k D r + ((clipAt l k).editedEnd - (clipAt l k).editedStart) }

section StepLemmasB

variable {l : List EditingClip} {k : ℕ}
variable {v x cx w D : ℚ}

theorem handleMouseMove_move (hk : k < l.length) :
    handleMouseMove l k .move v x cx w D =
      l.set k (movedClip l k D (reqOf v x cx w D)) := by
  simp [handleMouseMove, hk, reqOf, movedClip, moveTarget]

end StepLemmasB

section Preservation

variable {l : List EditingClip} {k : ℕ} {D : ℚ}

theorem clipAt_set_self (hk : k < l.length) (c : EditingClip) :
    clipAt (l.set k c) k = c :=
  getD_set_self hk

theorem clipAt_set_ne {j : ℕ} (hne : j ≠ k) (c : EditingClip) :
    clipAt (l.set k c) j = clipAt l j :=
  getD_set_ne hne

theorem set_noOverlap (hk : k < l.length) (c : EditingClip) (h1 : NoOverlap l)
    (hstart : ∀ j, j < l.length → j ≠ k →
      (clipAt l j).editedEnd ≤ (clipAt l k).editedStart →
      (clipAt l j).editedEnd ≤ c.editedStart)
    (hend : ∀ j, j < l.length → j ≠ k →
      (clipAt l k).editedEnd ≤ (clipAt l j).editedStart →
      c.editedEnd ≤ (clipAt l j).editedStart) :
    NoOverlap (l.set k c) := by
  intro i hi j hj hne
  rw [List.length_set] at hi hj
  by_cases hik : i = k
  · have hjk : j ≠ k := fun h => hne (by rw [hik, h])
    have hkj : k ≠ j := fun h => hjk h.symm
    rw [hik, clipAt_set_self hk, clipAt_set_ne hjk]
    rcases h1 k hk j hj hkj with h | h
    · exact Or.inl (hend j hj hjk h)
    · exact Or.inr (hstart j hj hjk h)
  · by_cases hjk : j = k
    · have hki : k ≠ i := fun h => hik h.symm
      rw [hjk, clipAt_set_self hk, clipAt_set_ne hik]
      rcases h1 k hk i hi hki with h | h
      · exact Or.inr (hend i hi hik h)
      · exact Or.inl (hstart i hi hik h)
    · rw [clipAt_set_ne hik, clipAt_set_ne hjk]
      exact h1 i hi j hj hne

theorem set_nonNegStarts (c : EditingClip) (h2 : NonNegStarts l)
    (hc : 0 ≤ c.editedStart) : NonNegStarts (l.set k c) := by
  intro i hi
  rw [List.length_set] at hi
  by_cases hik : i = k
  · subst hik
    by_cases hk : i < l.length
    · rw [clipAt_set_self hk]; exact hc
    · exact absurd hi hk
  · rw [clipAt_set_ne hik]; exact h2 i hi

theorem set_boundsContained (c : EditingClip) (hB : BoundsContained l D)
    (hc : 0 ≤ c.editedStart ∧ c.editedStart < c.editedEnd ∧ c.editedEnd ≤ D) :
    BoundsContained (l.set k c) D := by
  intro i hi
  rw [List.length_set] at hi
  by_cases hik : i = k
  · subst hik
    by_cases hk : i < l.length
    · rw [clipAt_set_self hk]; exact hc
    · exact absurd hi hk
  · rw [clipAt_set_ne hik]; exact hB i hi

theorem dragStep_preserves (ev : DragEvent) (h1 : NoOverlap l)
    (h2 : NonNegStarts l) :
    NoOverlap (dragStep l ev) ∧ NonNegStarts (dragStep l ev) := by
  obtain ⟨k, ty, v, x, cx, w, D⟩ := ev
  show NoOverlap (handleMouseMove l k ty v x cx w D) ∧
    NonNegStarts (handleMouseMove l k ty v x cx w D)
  by_cases hk : k < l.length
  · have hs0 : 0 ≤ (clipAt l k).editedStart := h2 k hk
    cases ty with
    | trimStart =>
      rw [handleMouseMove_trimStart hk]
      constructor
      · refine set_noOverlap hk _ h1 (fun j hj hjk hbef => ?_) (fun j hj hjk haft => ?_)
        · exact le_trans (le_minBound_of_before hj hjk hbef) (le_max_left _ _)
        · exact haft
      · exact set_nonNegStarts _ h2 (le_trans minBound_nonneg (le_max_left _ _))
    | trimEnd =>
      rw [handleMouseMove_trimEnd hk]
      constructor
      · refine set_noOverlap hk _ h1 (fun j hj hjk hbef => ?_) (fun j hj hjk haft => ?_)
        · exact hbef
        · exact le_trans (min_le_left _ _) (maxBound_le_of_after hj hjk haft)
      · exact set_nonNegStarts _ h2 hs0
    | move =>
      rw [handleMouseMove_move hk]
      constructor
      · refine set_noOverlap hk _ h1 (fun j hj hjk hbef => ?_) (fun j hj hjk haft => ?_)
        · exact le_trans (le_minBound_of_before hj hjk hbef) (le_max_left _ _)
        · show moveTarget l k D (reqOf v x cx w D) +
            ((clipAt l k).editedEnd - (clipAt l k).editedStart) ≤ (clipAt l j).editedStart
          have hmb : minBoundOf l k ≤ (clipAt l k).editedStart := minBound_le_start hs0
          have hM : maxBoundOf l k D ≤ (clipAt l j).editedStart :=
            maxBound_le_of_after hj hjk haft
          have hmin : min (maxBoundOf l k D -
              ((clipAt l k).editedEnd - (clipAt l k).editedStart)) (reqOf v x cx w D) ≤
              maxBoundOf l k D - ((clipAt l k).editedEnd - (clipAt l k).editedStart) :=
            min_le_left _ _
          have ht : moveTarget l k D (reqOf v x cx w D) ≤
              (clipAt l j).editedStart - ((clipAt l k).editedEnd - (clipAt l k).editedStart) := by
            refine max_le (by linarith) (by linarith)
          linarith
      · exact set_nonNegStarts _ h2 (le_trans minBound_nonneg (le_max_left _ _))
  · rw [handleMouseMove_out hk]
    exact ⟨h1, h2⟩

theorem dragStep_preserves_bounds (ev : DragEvent)
    (hB : BoundsContained l ev.videoDuration) :
    BoundsContained (dragStep l ev) ev.videoDuration := by
  obtain ⟨k, ty, v, x, cx, w, D⟩ := ev
  show BoundsContained (handleMouseMove l k ty v x cx w D) D
  by_cases hk : k < l.length
  · obtain ⟨hs0, hse, heD⟩ := hB k hk
    cases ty with
    | trimStart =>
      rw [handleMouseMove_trimStart hk]
      refine set_boundsContained _ hB ⟨?_, ?_, ?_⟩
      · exact le_trans minBound_nonneg (le_max_left _ _)
      · show max (minBoundOf l k) _ < (clipAt l k).editedEnd
        refine max_lt (lt_of_le_of_lt (minBound_le_start hs0) hse) ?_
        exact lt_of_le_of_lt (min_le_left _ _) (by linarith)
      · exact heD
    | trimEnd =>
      rw [handleMouseMove_trimEnd hk]
      refine set_boundsContained _ hB ⟨hs0, ?_, ?_⟩
      · show (clipAt l k).editedStart < min (maxBoundOf l k D) _
        refine lt_min (start_lt_maxBound hse heD) ?_
        exact lt_of_lt_of_le (by linarith) (le_max_left _ _)
      · exact le_trans (min_le_left _ _) maxBound_le_D
    | move =>
      rw [handleMouseMove_move hk]
      refine set_boundsContained _ hB ⟨?_, ?_, ?_⟩
      · exact le_trans minBound_nonneg (le_max_left _ _)
      · show moveTarget l k D (reqOf v x cx w D) <
          moveTarget l k D (reqOf v x cx w D) +
            ((clipAt l k).editedEnd - (clipAt l k).editedStart)
        linarith
      · show moveTarget l k D (reqOf v x cx w D) +
          ((clipAt l k).editedEnd - (clipAt l k).editedStart) ≤ D
        have hmb : minBoundOf l k ≤ (clipAt l k).editedStart := minBound_le_start hs0
        have hM : maxBoundOf l k D ≤ D := maxBound_le_D
        have ht : moveTarget l k D (reqOf v x cx w D) ≤
            D - ((clipAt l k).editedEnd - (clipAt l k).editedStart) := by
          refine max_le (by linarith) ?_
          exact le_trans (min_le_left _ _) (by linarith)
        linarith
  · rw [handleMouseMove_out hk]
    exact hB

theorem applyDrags_noOverlap {evs : List DragEvent} (h1 : NoOverlap l)
    (h2 : NonNegStarts l) :
    NoOverlap (applyDrags l evs) ∧ NonNegStarts (applyDrags l evs) := by
  induction evs generalizing l with
  | nil => exact ⟨h1, h2⟩
  | cons ev evs ih =>
    obtain ⟨h1', h2'⟩ := dragStep_preserves ev h1 h2
    exact ih h1' h2'

theorem applyDrags_bounds {evs : List DragEvent}
    (hB : BoundsContained l D) (hD : ∀ ev ∈ evs, ev.videoDuration = D) :
    BoundsContained (applyDrags l evs) D := by
  induction evs generalizing l with
  | nil => exact hB
  | cons ev evs ih =>
    have hevD : ev.videoDuration = D := hD ev (List.mem_cons_self ev evs)
    have hB' : BoundsContained (dragStep l ev) D := by
      rw [← hevD]
      exact dragStep_preserves_bounds ev (hevD ▸ hB)
    exact ih hB' (fun e he => hD e (List.mem_cons_of_mem ev he))

end Preservation

/-- The `AppState` union type of page.tsx:
`'input' | 'processing' | 'editing' | 'complete' | 'error'`. -/
inductive AppState where
  | input
  | processing
  | editing
  | complete
  | error
deriving DecidableEq, Inhabited

/-- A raw upstream clip record handed to `processClips` (an `any`-typed JS
object); every field the mapper reads is optional.  Upstream ids are modelled
as strings (the source coerces with `String(...)`). -/
structure RawClip where
  id : Option String
  clip_id : Option String
  title : Option String
  start_time : Option ℚ
  end_time : Option ℚ
  duration : Option ℚ
  url_path : Option String
  path : Option String
  thumbnail : Option String
  text : Option String
  caption : Option String
  hashtags : Option (List String)
  captions : Option (List CaptionSegment)
  captionStyle : Option CaptionStyle
deriving DecidableEq, Inhabited

/-- A raw record with only the two time bounds set, as produced by the
upstream pipeline in the scenarios of the spec. -/
def rawTimes (s e : Option ℚ) : RawClip :=
  { id := none, clip_id := none, title := none, start_time := s, end_time := e,
    duration := none, url_path := none, path := none, thumbnail := none,
    text := none, caption := none, hashtags := none, captions := none,
    captionStyle := none }

/-- JS truncating integer conversion (`Math.trunc`), used to model the JS `%`
remainder. -/
def jsTrunc (q : ℚ) : ℤ := if 0 ≤ q then ⌊q⌋ else -⌊-q⌋

/-- JS `%` remainder (sign of the dividend): `a - b * trunc(a / b)`. -/
def jsRem (a b : ℚ) : ℚ := a - b * (jsTrunc (a / b) : ℚ)

/-- JS `Math.round` (half toward plus infinity). -/
def jsRound (x : ℚ) : ℤ := ⌊x + 1/2⌋

/-- JS `String.prototype.padStart(2, '0')`. -/
def padStart2 (s : String) : String :=
  if s.length < 2 then String.mk (List.replicate (2 - s.length) '0') ++ s else s

/-- `formatTime` helper of page.tsx: seconds to `MM:SS`. -/
def formatTime (seconds : ℚ) : String :=
  let mins : ℤ := ⌊seconds / 60⌋
  let secs : ℤ := ⌊jsRem seconds 60⌋
  padStart2 (toString mins) ++ ":" ++ padStart2 (toString secs)

/-- `toFixed(1)` on a non-negative number, as used by `formatDuration`
(decimal rounding artefacts of binary floats are not modelled). -/
def toFixed1 (q : ℚ) : String :=
  let t : ℤ := jsRound (q * 10)
  toString (t / 10) ++ "." ++ toString (t % 10)

/-- `formatDuration` helper of page.tsx. -/
def formatDuration (seconds : ℚ) : String :=
  let roundedSeconds := (jsRound (seconds * 10) : ℚ) / 10
  let mins : ℤ := ⌊roundedSeconds / 60⌋
  let remainingSecs := jsRem roundedSeconds 60
  if 0 < mins then
    toString mins ++ ":" ++ padStart2 (toString (⌊remainingSecs⌋ : ℤ))
  else
    if jsRem remainingSecs 1 = 0 then toString (⌊remainingSecs⌋ : ℤ) ++ "s"
    else toFixed1 remainingSecs ++ "s"

/-- Models the `String(Math.random())` id fallback of `processClips` for a
record carrying neither `id` nor `clip_id`; the concrete value is never
inspected by the code. -/
def randomId : String := "0.123456789"

/-- The per-record mapper inside `processClips`; each `x || d` fallback of the
source becomes `Option.getD` (`0` and `''` behave identically on both sides
for the fields involved). -/
def mkClip (r : RawClip) : Clip :=
  { id := r.id.getD (r.clip_id.getD randomId)
    title := r.title.getD ("Clip " ++ r.id.getD "undefined")
    startTime := formatTime (r.start_time.getD 0)
    endTime := formatTime (r.end_time.getD 0)
    duration := formatDuration (r.duration.getD 0)
    path := r.url_path.getD (r.path.getD "")
    thumbnail := r.thumbnail
    start_time := r.start_time.getD 0
    end_time := r.end_time.getD 0
    text := r.text.getD ""
    caption := r.caption.getD ""
    hashtags := r.hashtags.getD []
    captions := r.captions.getD []
    captionStyle := r.captionStyle.getD defaultCaptionStyle }

/-- `processClips` of page.tsx (the null check on `results` is the `Option`
at the call sites). -/
def processClips (results : List RawClip) : List Clip :=
  if results.length = 0 then [] else results.map mkClip

/-- The `editingClipsData` mapper of `pollStatus`: spread the clip and
initialize the edited boundaries from the raw times (`originalPath` is left
undefined by the spread). -/
def toEditingClip (c : Clip) : EditingClip :=
  { toClip := c
    originalStart := c.start_time
    originalEnd := c.end_time
    editedStart := c.start_time
    editedEnd := c.end_time
    originalPath := none }

/-- `JobStatusResponse` of apiClient.ts (the unused `is_demo`/`metadata`
fields are omitted; nothing in the modelled handlers reads them). -/
structure JobStatusResponse where
  status : String
  message : String
  results : Option (List RawClip)
deriving DecidableEq, Inhabited

/-- `FinalizeResponse` of apiClient.ts (the unused `organization` field is
omitted; `finalized_clips : any[]` holds raw records). -/
structure FinalizeResponse where
  status : String
  message : String
  finalized_clips : List RawClip
deriving DecidableEq, Inhabited

/-- The component state of `CreatePage` relevant to the modelled handlers:
one field per `useState` hook they read or write. -/
structure AppModel where
  appState : AppState
  jobId : String
  jobStatus : Option JobStatusResponse
  error : String
  currentClipIndex : ℕ
  editingClips : List EditingClip
  finalizedClips : List RawClip
  currentTime : ℚ
  videoDuration : ℚ
  isDragging : Option (DragType × ℕ)
  dragStartX : ℚ
  dragStartValue : ℚ
  isPreventingTimelineClick : Bool
  isFinalizingClips : Bool
deriving DecidableEq, Inhabited

/-- One round of the `pollStatus` callback, given the settled outcome of
`apiService.getJobStatus` (`Except.error` models a thrown fetch error, whose
message the catch block stores). -/
def pollStatusStep (s : AppModel) (result : Except String JobStatusResponse) :
    AppModel :=
  match result with
  | .error msg => { s with error := msg, appState := .error }
  | .ok st =>
    let s1 := { s with jobStatus := some st }
    if st.status = "complete" then
      { s1 with
        editingClips := (processClips (st.results.getD [])).map toEditingClip
        appState := .editing }
    else if st.status = "failed" then
      { s1 with error := st.message, appState := .error }
    else s1

/-- JS `String.prototype.includes` over character lists. -/
def charsHasInfix (pat : List Char) : List Char → Bool
  | [] => pat.isEmpty
  | c :: rest => pat.isPrefixOf (c :: rest) || charsHasInfix pat rest

/-- JS `s.includes(pat)`. -/
def strIncludes (s pat : String) : Bool := charsHasInfix pat.toList s.toList

/-- The error message chosen by the catch block of `handleFinalize`. -/
def finalizeErrorMessage (m : String) : String :=
  if strIncludes m "Failed to fetch" then
    "Network error during finalization. Please check your connection and try again."
  else "Finalization failed: " ++ m

/-- `handleFinalize` of page.tsx, given the settled outcome of
`apiService.finalizeClips` (`Except.error` models a thrown fetch error).  The
second component records whether the finalize request was actually issued. -/
def handleFinalize (s : AppModel) (resp : Except String FinalizeResponse) :
    AppModel × Bool :=
  if s.jobId = "" then (s, false)
  else if s.isFinalizingClips then (s, false)
  else
    let s1 := { s with
      isFinalizingClips := true
      appState := .processing
      jobStatus :=
        some ⟨"processing", "Finalizing clips with your edits...", none⟩ }
    match resp with
    | .ok r =>
      if r.status = "success" then
        ({ s1 with
            finalizedClips := r.finalized_clips
            appState := .complete
            jobStatus :=
              some ⟨"complete", "All clips finalized successfully!", some r.finalized_clips⟩
            isFinalizingClips := false }, true)
      else
        ({ s1 with
            error := finalizeErrorMessage
              (if r.message = "" then "Failed to finalize clips" else r.message)
            appState := .error
            isFinalizingClips := false }, true)
    | .error msg =>
        ({ s1 with
            error := finalizeErrorMessage msg
            appState := .error
            isFinalizingClips := false }, true)

/-- The response of `apiService.applyCaptions` (only `previewUrl` is read). -/
structure ApplyCaptionsResponse where
  previewUrl : Option String
deriving DecidableEq, Inhabited

/-- `handleCaptionsApplied` of page.tsx. -/
def handleCaptionsApplied (l : List EditingClip) (clipId : String)
    (captions : List CaptionSegment) (style : CaptionStyle)
    (captionedVideoUrl : Option String) : List EditingClip :=
  l.map fun clip =>
    if clip.id = clipId then
      { clip with
        captions := captions
        captionStyle := style
        path := captionedVideoUrl.getD clip.path
        originalPath := some (clip.originalPath.getD clip.path) }
    else clip

/-- `handleApplyCaptions` of the captions modal composed with
`handleCaptionsApplied`: on success the returned `previewUrl` is forwarded,
on a thrown error the callback is invoked without a URL (the catch block). -/
def applyCaptionsFlow (s : AppModel) (clipId : String)
    (captions : List CaptionSegment) (style : CaptionStyle)
    (result : Except String ApplyCaptionsResponse) : AppModel :=
  match result with
  | .ok resp =>
    { s with editingClips :=
        handleCaptionsApplied s.editingClips clipId captions style resp.previewUrl }
  | .error _ =>
    { s with editingClips :=
        handleCaptionsApplied s.editingClips clipId captions style none }

/-- What the polling `useEffect` of page.tsx installs for a given value of
its dependencies: whether `pollStatus()` is invoked immediately, and the
period of the repeating `setInterval` timer if one is installed.  Re-running
the effect after a dependency change first runs the cleanup
(`clearInterval`), so `repeatEveryMs = none` means no poll timer is live. -/
structure PollingDecision where
  immediatePoll : Bool
  repeatEveryMs : Option ℕ
deriving DecidableEq, Inhabited

/-- The polling `useEffect` body:
`if (appState !== 'processing' || !jobId || isFinalizingClips) return;`
then `pollStatus(); const interval = setInterval(pollStatus, 3000);`. -/
def pollingEffect (appState : AppState) (jobId : String)
    (isFinalizingClips : Bool) : PollingDecision :=
  if appState ≠ AppState.processing ∨ jobId = "" ∨ isFinalizingClips = true then
    { immediatePoll := false, repeatEveryMs := none }
  else
    { immediatePoll := true, repeatEveryMs := some 3000 }

/-- The value `onLoadedMetadata` assigns to `videoDuration`: the fixed
constant `120`, whatever the loaded video's intrinsic duration is. -/
def onLoadedMetadataVideoDuration (_intrinsicDuration : ℚ) : ℚ := 120

/-- The `onLoadedMetadata` handler of the preview video element (the write to
the media element's own `currentTime` is outside the model). -/
def onLoadedMetadata (s : AppModel) (intrinsicDuration : ℚ) : AppModel :=
  let s1 := { s with videoDuration := onLoadedMetadataVideoDuration intrinsicDuration }
  if s.currentClipIndex < s.editingClips.length then
    { s1 with currentTime := (clipAt s.editingClips s.currentClipIndex).editedStart }
  else s1

/-- The `dragStartValue` captured by `handleTimelineMouseDown` for the given
gesture kind. -/
def captureDragStartValue (l : List EditingClip) (k : ℕ) (ty : DragType) : ℚ :=
  match ty with
  | .trimStart => (clipAt l k).editedStart
  | .trimEnd => (clipAt l k).editedEnd
  | .move => (clipAt l k).editedStart

/-- One complete drag gesture: `handleTimelineMouseDown` at pointer position
`downX`, the installed `handleMouseMove` listener run once per entry of
`moves` (the pointer positions of the move events), then `handleMouseUp`.

The two document listeners are closures created inside the mousedown handler
of one render: the `dragStartX`, `dragStartValue`, `editingClips` and
`videoDuration` they read are the state values of that render, i.e. the
values from *before* the mousedown's `set...` calls (those only take effect
in a later render, which the already-installed listeners never see).  Each
move event rebuilds `newClips` from that captured `editingClips` array and
replaces the state with it wholesale. -/
def runGesture (s : AppModel) (downX : ℚ) (ty : DragType) (k : ℕ)
    (timelineWidth : ℚ) (moves : List ℚ) : AppModel :=
  if k ≠ s.currentClipIndex then s
  else
    let staleClips := s.editingClips
    let staleX := s.dragStartX
    let staleValue := s.dragStartValue
    let staleDuration := s.videoDuration
    let s1 := { s with
      isDragging := some (ty, k)
      dragStartX := downX
      isPreventingTimelineClick := true
      dragStartValue :=
        if k < s.editingClips.length then captureDragStartValue s.editingClips k ty
        else s.dragStartValue }
    let finalClips := moves.foldl
      (fun _cur clientX =>
        handleMouseMove staleClips k ty staleValue staleX clientX timelineWidth staleDuration)
      s1.editingClips
    { s1 with editingClips := finalClips, isDragging := none }

/-- C10: the timeline duration used by every editing computation (the
pixel-to-time mapping of drags, the clamping bounds, timeline rendering) is
set to the fixed constant 120 seconds when the preview video's metadata
loads, independent of the loaded video's intrinsic duration. -/
theorem c10_timeline_duration_fixed_120 :
    ∀ d d' : ℚ, onLoadedMetadataVideoDuration d = 120 ∧
      onLoadedMetadataVideoDuration d = onLoadedMetadataVideoDuration d' ∧
      (∀ s : AppModel, (onLoadedMetadata s d).videoDuration = 120) ∧
      (∀ l k ty v x cx w,
        handleMouseMove l k ty v x cx w (onLoadedMetadataVideoDuration d) =
          handleMouseMove l k ty v x cx w 120) ∧
      (∀ l k, maxBoundOf l k (onLoadedMetadataVideoDuration d) = maxBoundOf l k 120) := by
  intro d d'
  refine ⟨rfl, rfl, ?_, fun l k ty v x cx w => rfl, fun l k => rfl⟩
  intro s
  unfold onLoadedMetadata
  split <;> rfl

/-- C7: invoking finalize while a previous finalize call is still outstanding
(the in-flight flag is set) is a no-op: no request is issued, no state field
changes, nothing is queued. -/
theorem c7_duplicate_finalize_noop :
    ∀ (s : AppModel) (resp : Except String FinalizeResponse),
      s.isFinalizingClips = true → handleFinalize s resp = (s, false) := by
  intro s resp h
  simp [handleFinalize, h]

def c7State : AppModel :=
  { (default : AppModel) with
    appState := .editing
    jobId := "job-1"
    isFinalizingClips := true }

theorem c7_duplicate_finalize_noop_witness :
    handleFinalize c7State (Except.error "boom") = (c7State, false) :=
  c7_duplicate_finalize_noop c7State (Except.error "boom") (by decide)

/-- C3: a finalize response with status "success" moves the job to `complete`
and replaces the active clip set by exactly the returned `finalized_clips`
list; a thrown call or any non-success status moves the job to `error` and
never back to `editing`. -/
theorem c3_finalize_outcome :
    ∀ (s : AppModel) (resp : Except String FinalizeResponse),
      s.jobId ≠ "" → s.isFinalizingClips = false →
      (∀ r, resp = Except.ok r → r.status = "success" →
        (handleFinalize s resp).1.appState = AppState.complete ∧
        (handleFinalize s resp).1.finalizedClips = r.finalized_clips) ∧
      (∀ r, resp = Except.ok r → r.status ≠ "success" →
        (handleFinalize s resp).1.appState = AppState.error ∧
        (handleFinalize s resp).1.appState ≠ AppState.editing) ∧
      (∀ m, resp = Except.error m →
        (handleFinalize s resp).1.appState = AppState.error ∧
        (handleFinalize s resp).1.appState ≠ AppState.editing) := by
  intro s resp hj hf
  refine ⟨?_, ?_, ?_⟩
  · intro r heq hst
    subst heq
    simp [handleFinalize, hj, hf, hst]
  · intro r heq hst
    subst heq
    simp [handleFinalize, hj, hf, hst]
  · intro m heq
    subst heq
    simp [handleFinalize, hj, hf]

def c3State : AppModel :=
  { (default : AppModel) with
    appState := .editing
    jobId := "job-1"
    isFinalizingClips := false
    finalizedClips := [rawTimes (some 99) (some 100)] }

def c3SuccessResponse : FinalizeResponse :=
  { status := "success"
    message := "ok"
    finalized_clips := [rawTimes (some 0) (some 10), rawTimes (some 10) (some 20)] }

theorem c3_finalize_outcome_witness :
    ((handleFinalize c3State (Except.ok c3SuccessResponse)).1.appState = AppState.complete ∧
      (handleFinalize c3State (Except.ok c3SuccessResponse)).1.finalizedClips =
        c3SuccessResponse.finalized_clips) ∧
    ((handleFinalize c3State (Except.error "Failed to fetch")).1.appState = AppState.error ∧
      (handleFinalize c3State (Except.error "Failed to fetch")).1.appState ≠ AppState.editing) :=
  ⟨(c3_finalize_outcome c3State (Except.ok c3SuccessResponse) (by decide) rfl).1
      c3SuccessResponse rfl rfl,
    (c3_finalize_outcome c3State (Except.error "Failed to fetch") (by decide) rfl).2.2
      "Failed to fetch" rfl⟩

/-- C4: given a job (nonempty job id), a status poll is installed if and only
if the app is in `processing` with no finalize in flight; on entry one poll
runs immediately and a repeating 3000 ms timer is installed; whenever that
condition fails (the state left `processing`, or finalize is in flight) the
effect installs no timer, i.e. the previous one is cancelled by the cleanup. -/
theorem c4_polling_discipline :
    ∀ (st : AppState) (jobId : String) (fin : Bool), jobId ≠ "" →
      ((pollingEffect st jobId fin).immediatePoll = true ↔
        (st = AppState.processing ∧ fin = false)) ∧
      ((pollingEffect st jobId fin).repeatEveryMs = some 3000 ↔
        (st = AppState.processing ∧ fin = false)) ∧
      ((pollingEffect st jobId fin).repeatEveryMs = none ↔
        ¬ (st = AppState.processing ∧ fin = false)) := by
  intro st jobId fin hj
  by_cases hc : st = AppState.processing ∧ fin = false
  · have hcond : ¬ (st ≠ AppState.processing ∨ jobId = "" ∨ fin = true) := by
      push_neg
      refine ⟨hc.1, hj, by simp [hc.2]⟩
    simp [pollingEffect, hcond, hc, hj]
  · have hcond : st ≠ AppState.processing ∨ fin = true := by
      by_cases h1 : st = AppState.processing
      · cases fin with
        | false => exact absurd ⟨h1, rfl⟩ hc
        | true => exact Or.inr rfl
      · exact Or.inl h1
    rcases hcond with h | h
    · simp [pollingEffect, h, hc]
    · simp [pollingEffect, h, hc]

theorem c4_polling_discipline_witness :
    ((pollingEffect AppState.processing "job-1" false).immediatePoll = true ∧
      (pollingEffect AppState.processing "job-1" false).repeatEveryMs = some 3000) ∧
    (pollingEffect AppState.editing "job-1" false).repeatEveryMs = none ∧
    (pollingEffect AppState.processing "job-1" true).repeatEveryMs = none :=
  ⟨⟨((c4_polling_discipline AppState.processing "job-1" false (by decide)).1).mpr
        ⟨rfl, rfl⟩,
      ((c4_polling_discipline AppState.processing "job-1" false (by decide)).2.1).mpr
        ⟨rfl, rfl⟩⟩,
    ((c4_polling_discipline AppState.editing "job-1" false (by decide)).2.2).mpr
      (fun h => by cases h.1),
    ((c4_polling_discipline AppState.processing "job-1" true (by decide)).2.2).mpr
      (fun h => by cases h.2)⟩

/-- C8: when the caption apply call throws, the clip's captions become the
locally edited segments and its style the chosen style, while its `path`
field is left untouched (the map below contains no `path` update) and the
app state (in particular, whether the job is in `error`) is unchanged. -/
theorem c8_caption_apply_degrades :
    ∀ (s : AppModel) (clipId : String) (captions : List CaptionSegment)
      (style : CaptionStyle) (msg : String),
      (applyCaptionsFlow s clipId captions style (Except.error msg)).appState =
        s.appState ∧
      (applyCaptionsFlow s clipId captions style (Except.error msg)).editingClips =
        s.editingClips.map (fun clip =>
          (if clip.id = clipId then
            { clip with
              captions := captions
              captionStyle := style
              originalPath := some (clip.originalPath.getD clip.path) }
          else clip)) := by
  intro s clipId captions style msg
  refine ⟨rfl, ?_⟩
  show handleCaptionsApplied s.editingClips clipId captions style none = _
  unfold handleCaptionsApplied
  simp only [Option.getD_none]

def c1Clips : List EditingClip := [testClip (-10) 1, testClip 1 2]

def c1Event : DragEvent :=
  { clipIndex := 0, ty := .move, dragStartValue := -10, dragStartX := 0,
    clientX := 0, timelineWidth := 1200, videoDuration := 120 }

/-- C1 counterexample: a collection satisfying exactly the claim's stated
precondition (pairwise non-overlap and minimum length 1) on which a single
`move` event produces overlapping clips — the first clip starts at `-10`, the
`Math.max(0, ...)` floor pushes it to `0` while its duration `11` is kept, so
it now covers the second clip `[1, 2)`. -/
theorem c1_counterexample :
    NoOverlap c1Clips ∧ MinLen c1Clips ∧ ¬ NoOverlap (dragStep c1Clips c1Event) := by
  refine ⟨by decide, by decide, by decide⟩

/-- C1 (amended): if additionally every clip's `editedStart` is non-negative,
then after any sequence of drag-move events (hence in particular after each
single one) the no-overlap invariant holds. -/
theorem c1_no_overlap_preserved :
    ∀ (l : List EditingClip) (evs : List DragEvent),
      NoOverlap l → MinLen l → NonNegStarts l →
      NoOverlap (applyDrags l evs) :=
  fun _l _evs h1 _hmin h2 => (applyDrags_noOverlap h1 h2).1

theorem c1_no_overlap_preserved_witness :
    NoOverlap (applyDrags [testClip 0 10, testClip 10 20]
      [⟨0, .trimEnd, 10, 0, 50, 1200, 120⟩, ⟨1, .move, 10, 0, 200, 1200, 120⟩]) :=
  c1_no_overlap_preserved [testClip 0 10, testClip 10 20]
    [⟨0, .trimEnd, 10, 0, 50, 1200, 120⟩, ⟨1, .move, 10, 0, 200, 1200, 120⟩]
    (by decide) (by decide) (by decide)

/-- C2: in a collection satisfying bounds containment, a trim request at or
beyond the neighbouring clip's edge lands exactly on that (nearest) edge —
the new boundary equals some other clip's edge and stays at or before every
same-side neighbour's edge — and no other clip changes.  The first conjunct
covers dragging the right edge (`trimEnd`) against following clips, the
second dragging the left edge (`trimStart`) against preceding clips. -/
theorem c2_monotonic_clamping :
    ∀ (l : List EditingClip) (k : ℕ) (v x cx w D : ℚ),
      BoundsContained l D → k < l.length →
      ((∃ j, j < l.length ∧ j ≠ k ∧
          (clipAt l k).editedEnd ≤ (clipAt l j).editedStart) →
        maxBoundOf l k D ≤ reqOf v x cx w D →
        (∃ j, j < l.length ∧ j ≠ k ∧
          (clipAt (handleMouseMove l k .trimEnd v x cx w D) k).editedEnd =
            (clipAt l j).editedStart) ∧
        (∀ j, j < l.length → j ≠ k →
          (clipAt l k).editedEnd ≤ (clipAt l j).editedStart →
          (clipAt (handleMouseMove l k .trimEnd v x cx w D) k).editedEnd ≤
            (clipAt l j).editedStart) ∧
        (∀ i, i ≠ k →
          clipAt (handleMouseMove l k .trimEnd v x cx w D) i = clipAt l i)) ∧
      ((∃ j, j < l.length ∧ j ≠ k ∧
          (clipAt l j).editedEnd ≤ (clipAt l k).editedStart) →
        reqOf v x cx w D ≤ minBoundOf l k →
        (∃ j, j < l.length ∧ j ≠ k ∧
          (clipAt (handleMouseMove l k .trimStart v x cx w D) k).editedStart =
            (clipAt l j).editedEnd) ∧
        (∀ j, j < l.length → j ≠ k →
          (clipAt l j).editedEnd ≤ (clipAt l k).editedStart →
          (clipAt l j).editedEnd ≤
            (clipAt (handleMouseMove l k .trimStart v x cx w D) k).editedStart) ∧
        (∀ i, i ≠ k →
          clipAt (handleMouseMove l k .trimStart v x cx w D) i = clipAt l i)) := by
  intro l k v x cx w D hB hk
  constructor
  · intro hnb hreq
    obtain ⟨j0, hj0, hj0k, hfol⟩ := hnb
    rw [handleMouseMove_trimEnd hk]
    have hEnd : (clipAt (l.set k { clipAt l k with editedEnd := (min (maxBoundOf l k D)
        (max ((clipAt l k).editedStart + 1) (reqOf v x cx w D))) }) k).editedEnd =
        maxBoundOf l k D := by
      rw [clipAt_set_self hk]
      exact min_eq_left (le_trans hreq (le_max_right _ _))
    have hlt : maxBoundOf l k D < D :=
      lt_of_le_of_lt (maxBound_le_of_after hj0 hj0k hfol)
        (lt_of_lt_of_le (hB j0 hj0).2.1 (hB j0 hj0).2.2)
    have hmm := foldl_min_eq_or_mem (α := ℚ) D
      (((l.eraseIdx k).map (fun c => c.editedStart)).filter
        (fun s => (clipAt l k).editedEnd ≤ s))
    rcases hmm with hd | hmem
    · exact absurd hd (ne_of_lt hlt)
    · rcases List.mem_filter.mp hmem with ⟨hmap, _⟩
      rcases List.mem_map.mp hmap with ⟨c0, hc0mem, hc0eq⟩
      rcases mem_eraseIdx_index hc0mem with ⟨j, hjlen, hjk, hjeq⟩
      refine ⟨⟨j, hjlen, hjk, ?_⟩, ?_, ?_⟩
      · rw [hEnd]
        show maxBoundOf l k D = (clipAt l j).editedStart
        rw [show clipAt l j = c0 from hjeq, hc0eq]
        rfl
      · intro j' hj' hj'k hfol'
        rw [hEnd]
        exact maxBound_le_of_after hj' hj'k hfol'
      · intro i hik
        exact clipAt_set_ne hik _
  · intro hnb hreq
    obtain ⟨j0, hj0, hj0k, hbef⟩ := hnb
    rw [handleMouseMove_trimStart hk]
    have hStart : (clipAt (l.set k { clipAt l k with editedStart := (max (minBoundOf l k)
        (min ((clipAt l k).editedEnd - 1) (reqOf v x cx w D))) }) k).editedStart =
        minBoundOf l k := by
      rw [clipAt_set_self hk]
      exact max_eq_left (le_trans (min_le_right _ _) hreq)
    have hpos : 0 < minBoundOf l k :=
      lt_of_lt_of_le (lt_of_le_of_lt (hB j0 hj0).1 (hB j0 hj0).2.1)
        (le_minBound_of_before hj0 hj0k hbef)
    have hmm := foldl_max_eq_or_mem (α := ℚ) 0
      (((l.eraseIdx k).map (fun c => c.editedEnd)).filter
        (fun e => e ≤ (clipAt l k).editedStart))
    rcases hmm with hd | hmem
    · exact absurd hd (ne_of_gt hpos)
    · rcases List.mem_filter.mp hmem with ⟨hmap, _⟩
      rcases List.mem_map.mp hmap with ⟨c0, hc0mem, hc0eq⟩
      rcases mem_eraseIdx_index hc0mem with ⟨j, hjlen, hjk, hjeq⟩
      refine ⟨⟨j, hjlen, hjk, ?_⟩, ?_, ?_⟩
      · rw [hStart]
        show minBoundOf l k = (clipAt l j).editedEnd
        rw [show clipAt l j = c0 from hjeq, hc0eq]
        rfl
      · intro j' hj' hj'k hbef'
        rw [hStart]
        exact le_minBound_of_before hj' hj'k hbef'
      · intro i hik
        exact clipAt_set_ne hik _

def c2ScenarioRaw : List RawClip :=
  [{ rawTimes (some 0) (some 10) with id := some "1" },
    { rawTimes (some 10) (some 20) with id := some "2" }]

/-- The collection ingested from `[{id:1,start:0,end:10},{id:2,start:10,end:20}]`. -/
def c2Ingested : List EditingClip := (processClips c2ScenarioRaw).map toEditingClip

theorem c2_monotonic_clamping_witness :
    (clipAt (handleMouseMove c2Ingested 0 .trimEnd 10 0 50 1200 120) 0).editedEnd = 10 ∧
    clipAt (handleMouseMove c2Ingested 0 .trimEnd 10 0 50 1200 120) 1 =
      clipAt c2Ingested 1 := by
  have h := (c2_monotonic_clamping c2Ingested 0 10 0 50 1200 120
    (by decide) (by decide)).1 ⟨1, by decide, by decide, by decide⟩ (by decide)
  obtain ⟨⟨j, hj, hjk, heq⟩, _hle, hunch⟩ := h
  constructor
  · have hj2 : j < 2 := by simpa [c2Ingested, processClips, c2ScenarioRaw] using hj
    have hj1 : j = 1 := by omega
    subst hj1
    rw [heq]
    decide
  · exact hunch 1 (by decide)

def c5State : AppModel :=
  { (default : AppModel) with appState := .processing, jobId := "job-1" }

def c5BadStatus : JobStatusResponse :=
  ⟨"complete", "Done", some [rawTimes (some 5) (some 5)]⟩

/-- C5 counterexample: a raw clip list containing an item with
`start_time ≥ end_time` (here `start_time = end_time = 5`) is ingested
without any failure — the completed poll moves the job to `editing`, not to
`error`. -/
theorem c5_counterexample :
    (rawTimes (some 5) (some 5)).end_time.getD 0 ≤
      (rawTimes (some 5) (some 5)).start_time.getD 0 ∧
    (pollStatusStep c5State (Except.ok c5BadStatus)).appState = AppState.editing ∧
    (pollStatusStep c5State (Except.ok c5BadStatus)).appState ≠ AppState.error := by
  refine ⟨by decide, by decide, by decide⟩

/-- C5 (amended): ingest never rejects.  A missing time bound is replaced by
`0`, items with `start_time ≥ end_time` and overlapping items are accepted
unchanged, and a poll that reports completion always moves the job to
`editing` whatever the raw list contains; the job reaches `error` only when
the poll itself fails or reports failure. -/
theorem c5_ingest_never_rejects :
    ∀ (s : AppModel) (m : String) (results : Option (List RawClip)),
      (pollStatusStep s (Except.ok ⟨"complete", m, results⟩)).appState =
        AppState.editing ∧
      (pollStatusStep s (Except.ok ⟨"complete", m, results⟩)).editingClips =
        (processClips (results.getD [])).map toEditingClip ∧
      (∀ r : RawClip, (mkClip r).start_time = r.start_time.getD 0 ∧
        (mkClip r).end_time = r.end_time.getD 0) := by
  intro s m results
  exact ⟨rfl, rfl, fun r => ⟨rfl, rfl⟩⟩

def c6State : AppModel :=
  { (default : AppModel) with appState := .processing, jobId := "job-1" }

def c6OversizedStatus : JobStatusResponse :=
  ⟨"complete", "Done", some [rawTimes (some 0) (some 200)]⟩

/-- C6 counterexample: ingest performs no clamping against the fixed
120-second timeline duration, so a clip whose raw `end_time` is `200` enters
`editing` with `editedEnd = 200 > 120`, violating bounds containment
immediately after ingest. -/
theorem c6_counterexample :
    (pollStatusStep c6State (Except.ok c6OversizedStatus)).appState =
      AppState.editing ∧
    ¬ BoundsContained
      (pollStatusStep c6State (Except.ok c6OversizedStatus)).editingClips
      (onLoadedMetadataVideoDuration 200) := by
  refine ⟨by decide, by decide⟩

/-- C6 (amended): bounds containment is not established by ingest, but it is
preserved by every drag operation: if all clips satisfy
`0 ≤ editedStart < editedEnd ≤ timelineDuration` at entry to editing, they
still do after any sequence of drag-move events issued against that timeline
duration. -/
theorem c6_bounds_preserved :
    ∀ (l : List EditingClip) (D : ℚ) (evs : List DragEvent),
      BoundsContained l D → (∀ ev ∈ evs, ev.videoDuration = D) →
      BoundsContained (applyDrags l evs) D :=
  fun _l _D _evs hB hD => applyDrags_bounds hB hD

theorem c6_bounds_preserved_witness :
    BoundsContained (applyDrags [testClip 10 20, testClip 30 40]
      [⟨0, .move, 10, 0, 100, 1200, 120⟩]) 120 :=
  c6_bounds_preserved [testClip 10 20, testClip 30 40] 120
    [⟨0, .move, 10, 0, 100, 1200, 120⟩] (by decide) (by decide)

def c9State : AppModel :=
  { (default : AppModel) with
    appState := .editing
    jobId := "job-1"
    editingClips := [testClip 10 20]
    currentClipIndex := 0
    videoDuration := 120 }

/-- C9: the code evaluated at the failing input.  In `c9State` (fresh
editing state: `dragStartX = 0`, `dragStartValue = 0`, one clip `[10, 20)`),
a complete gesture that presses the selected clip's right edge at
`clientX = 100`, moves once at the same `clientX = 100` (zero net pointer
movement) and releases, changes `editedEnd` from `20` to `11`: the installed
move listener reads `dragStartX`/`dragStartValue` from the closure of the
render that ran the mousedown, which still holds the pre-press values `0`/`0`
rather than the values the mousedown handler stored for exactly this
purpose. -/
theorem c9_zero_delta_gesture_mutates :
    (clipAt c9State.editingClips 0).editedEnd = 20 ∧
    (clipAt (runGesture c9State 100 .trimEnd 0 1200 [100]).editingClips 0).editedEnd = 11 ∧
    (runGesture c9State 100 .trimEnd 0 1200 [100]).editingClips ≠ c9State.editingClips := by
  refine ⟨by decide, by decide, by decide⟩
